import Mathlib

/-!
# A verification development for the `state-lexer` Go package

This file shallowly embeds the lexical-analysis engine of `lexer.go`
(the `L` struct and its methods `Current`, `Emit`, `Ignore`, `ReadBytes`,
`Peek`, `Rewind`, `Next`, `Take`, `Error`, and the drivers `Scan`,
`NextTokens`, `NextToken`), together with the example state functions
(`NumberState`, `IdentState`, `WhitespaceState`) from the package's test
file, and proves properties about them.

Modelling conventions:
* Go `rune` (`int32`) is modelled as `Int`; Go byte streams are `List Nat`
  (one byte per element, `Read` on a one-byte destination yields the head
  or reports zero bytes available).
* Go `int` fields (`start`, `position`, `readbytes`) are `Int` (the values
  stay far from machine-word overflow in every scenario considered here).
* The `runeStack` type used by the lexer is not part of the provided
  source; it is modelled from the spec (see `runeStack` below).
* Token handlers: in push mode the handler is the caller's callback, in
  pull mode it appends to `lastTokens`; in both cases a state-function
  invocation hands its emitted tokens over in emission order, so a state
  function is modelled as a map from engine state to (engine state,
  emitted tokens in order, next state or terminal signal).  The
  state-function representation is an abstract type `σ` with a step
  function (Go has first-class function values; claims quantifying over
  "every state function" quantify over `σ` and its step function).
* `Error` with no handler registered panics in Go; the model returns
  `none` for that case.
* `fmt.Sprintf("%q", r)` is modelled for printable ASCII runes, the only
  domain on which the embedded state functions use it.
-/

namespace StateLexer

/-- Go `lexer.EOFRune : rune = -1`. -/
def EOFRune : Int := -1

/-- Go `lexer.Token { Type TokenType; Value string }`; the value is kept
as its list of code points. -/
structure Token where
  type : Int
  value : List Int
  deriving DecidableEq, Repr

/-- Go `utf8.RuneLen(r)`: the number of bytes in the UTF-8 encoding of
`r`, or `-1` if `r` is not a valid encodable code point. -/
def runeLen (r : Int) : Int :=
  if r < 0 then -1
  else if r ≤ 0x7F then 1
  else if r ≤ 0x7FF then 2
  else if 0xD800 ≤ r ∧ r ≤ 0xDFFF then -1
  else if r ≤ 0xFFFF then 3
  else if r ≤ 0x10FFFF then 4
  else -1

/-- Go `utf8.DecodeRune(p)` restricted to a one-byte slice `p` (the lexer
always reads into `l.p = make([]byte, 1)`): an ASCII byte decodes to
itself with size 1, any other single byte is an incomplete/invalid
encoding and decodes to `utf8.RuneError = U+FFFD` with size 1. -/
def decodeByte (b : Nat) : Int × Int :=
  if b < 0x80 then ((b : Int), 1) else (0xFFFD, 1)

/-- The engine state: Go's `lexer.L` struct.  The pull-protocol fields
(`hasNext`, `nextState`, `lastTokens`, `TokenHandler`) are modelled in
the wrappers `NTState`/`PTState` below because they refer to the
state-function representation; `ErrorHandler` is modelled by the flag
`hasErrorHandler` plus the ghost counter `errorCalls` counting handler
invocations (the handler itself is an external observer). -/
structure L where
  /-- remaining bytes of the `io.Reader` source -/
  source : List Nat
  start : Int
  position : Int
  readbytes : Int
  /-- decoded code points, Go `buf []rune` -/
  buf : List Int
  /-- Go `Err error`, as the message `errors.New` was given -/
  Err : Option String
  /-- whether `ErrorHandler` is non-nil -/
  hasErrorHandler : Bool
  /-- ghost: number of times the error handler has been invoked -/
  errorCalls : Nat
  /-- the rewind stack, head = top.  Modelled from the spec: the
  `runeStack` type is absent from the provided source; per the spec the
  stack holds the code points consumed since the last emission boundary
  in consumption order, `push`/`pop` act at the top, `clear` empties it,
  and popping an empty stack yields the end-of-stream sentinel so that a
  rewind past the emission boundary is a no-op. -/
  rewind : List Int
  deriving DecidableEq, Repr

/-- Go `New(src, start)`: the fields of the fresh engine (the start-state
function itself lives in the pull-protocol wrappers). -/
def New (src : List Nat) (hasErrorHandler : Bool) : L :=
  { source := src, start := 0, position := 0, readbytes := 0, buf := []
    Err := none, hasErrorHandler := hasErrorHandler, errorCalls := 0
    rewind := [] }

/-- Go `l.Current()`: `string(l.buf[l.start:l.position])`. -/
def Current (l : L) : List Int :=
  (l.buf.drop l.start.toNat).take (l.position - l.start).toNat

/-- Go `l.Emit(t)`: build the token from `Current`, hand it over, then
`buf = buf[position:]`, `start = 0`, `position = 0`, clear the rewind
stack.  The handed-over token is returned to the caller (the
state-function body accumulates it for the active sink). -/
def Emit (t : Int) (l : L) : L × Token :=
  ({ l with buf := l.buf.drop l.position.toNat, start := 0, position := 0
            rewind := [] },
   { type := t, value := Current l })

/-- Go `l.Ignore()`: clear the rewind stack, `buf = buf[position:]`,
`start = 0`, `position = 0`. -/
def Ignore (l : L) : L :=
  { l with rewind := [], buf := l.buf.drop l.position.toNat
           start := 0, position := 0 }

/-- Go `l.ReadBytes()`. -/
def ReadBytes (l : L) : Int := l.readbytes

/-- Go `l.Rewind()`: pop the rewind stack; if the popped value is a real
code point (`r > EOFRune`), move `position` back by its encoded width,
clamped to never go below `start`.  Popping an empty stack yields
`EOFRune` (spec-modelled `runeStack.pop`), hence a no-op. -/
def Rewind (l : L) : L :=
  match l.rewind with
  | [] => l
  | r :: rest =>
    if r > EOFRune then
      let p := l.position - runeLen r
      { l with rewind := rest
               position := if p < l.start then l.start else p }
    else
      { l with rewind := rest }

/-- Go `l.Next()`: if an unread buffered code point remains
(`position < len(buf)`), return it and advance `position` by its encoded
width; otherwise read one byte from the source (zero bytes available
means the end-of-stream sentinel with size 0, otherwise decode the byte,
append the code point to `buf`, and count the byte read), advance
`position` by the decoded size, and push the result on the rewind
stack. -/
def Next (l : L) : L × Int :=
  if l.position < (l.buf.length : Int) then
    let r := l.buf.getD l.position.toNat 0
    ({ l with position := l.position + runeLen r, rewind := r :: l.rewind }, r)
  else
    match l.source with
    | [] =>
      ({ l with rewind := EOFRune :: l.rewind }, EOFRune)
    | b :: rest =>
      let rs := decodeByte b
      ({ l with source := rest, readbytes := l.readbytes + 1
                buf := l.buf ++ [rs.1], position := l.position + rs.2
                rewind := rs.1 :: l.rewind }, rs.1)

/-- Go `l.Peek()`: a `Next` immediately followed by a `Rewind`,
returning the peeked code point. -/
def Peek (l : L) : L × Int :=
  let lr := Next l
  (Rewind lr.1, lr.2)

/-- The loop body of Go `l.Take(chars)`: `r := l.Next()`, then while
`strings.ContainsRune(chars, r)` keep calling `Next`; the first
non-member triggers the final `Rewind`.  The loop is fuelled; `Take`
below supplies fuel sufficient for every state the theorems consider. -/
def takeLoop (chars : List Int) : Nat → L → L
  | 0, l => l
  | fuel + 1, l =>
    let lr := Next l
    if lr.2 ∈ chars then takeLoop chars fuel lr.1 else Rewind lr.1

/-- Go `l.Take(chars)`. -/
def Take (chars : List Int) (l : L) : L :=
  takeLoop chars (l.buf.length + l.source.length + 1) l

/-- Go `l.Error(e)`: with a handler registered, `l.Err = errors.New(e)`
and the handler is invoked once; with no handler registered the process
panics, modelled as `none`. -/
def Error (e : String) (l : L) : Option L :=
  if l.hasErrorHandler then
    some { l with Err := some e, errorCalls := l.errorCalls + 1 }
  else
    none

/-!
## The state-transition drivers

A Go `StateFunc` is a first-class function value returning the next
state function (or `nil`).  It is represented abstractly: a type `σ` of
state-function values together with a step function
`step : σ → L → L × List Token × Option σ` giving, for one invocation,
the updated engine, the tokens emitted during the invocation in
emission order, and the returned next state (`none` = terminal).
-/

/-- Go `l.Scan(f)`: run `state = state(l)` from the start state until it
is `nil`; the result collects the engine state and the per-invocation
emitted-token batches (the callback `f` observes their concatenation, in
order).  The loop is fuelled by the number of invocations allowed;
`none` means the fuel was exhausted before a terminal signal. -/
def Scan {σ : Type} (step : σ → L → L × List Token × Option σ) :
    Option σ → L → Nat → Option (L × List (List Token))
  | none, l, _ => some (l, [])
  | some _, _, 0 => none
  | some s, l, fuel + 1 =>
    let r := step s l
    (Scan step r.2.2 r.1 fuel).map fun q => (q.1, r.2.1 :: q.2)

/-- The pull-protocol fields of `L` for the `NextTokens` entry point:
`lastTokens`, `nextState`, `hasNext`.  (`nextState` is never `nil` while
`hasNext` holds when the engine is driven through `NextTokens` alone, so
it is carried unwrapped.) -/
structure NTState (σ : Type) where
  l : L
  lastTokens : List Token
  nextState : σ
  hasNext : Bool

/-- Go `l.NextTokens()`: on first use install the collecting sink and
cache the start state; invoke exactly one state function; if its result
is terminal, reset the pull state and return the `[]*Token{nil}`
sentinel (`none`), otherwise return the collected tokens and advance
`nextState`. -/
def NextTokens {σ : Type} (step : σ → L → L × List Token × Option σ)
    (start : σ) (p : NTState σ) : NTState σ × Option (List Token) :=
  let q := if p.hasNext then p else ⟨p.l, [], start, true⟩
  let r := step q.nextState q.l
  match r.2.2 with
  | none => (⟨r.1, [], start, false⟩, none)
  | some s => (⟨r.1, [], s, true⟩, some (q.lastTokens ++ r.2.1))

/-- The pull-protocol fields of `L` for the `NextToken` entry point.
Here `lastTokens` may hold the queued `nil` end-of-output sentinel
(`none` entries) and `nextState` may be `nil`. -/
structure PTState (σ : Type) where
  l : L
  lastTokens : List (Option Token)
  nextState : Option σ
  hasNext : Bool

/-- The inner loop of Go `l.NextToken()`:
`for l.nextState != nil { state := l.nextState; l.nextState = state(l);
if len(l.lastTokens) > 0 { break } }`, fuelled by the number of
invocations allowed. -/
def nextTokenLoop {σ : Type} (step : σ → L → L × List Token × Option σ) :
    Nat → L → List (Option Token) → Option σ →
    Option (L × List (Option Token) × Option σ)
  | _, l, acc, none => some (l, acc, none)
  | 0, _, _, some _ => none
  | fuel + 1, l, acc, some s =>
    let r := step s l
    let acc1 := acc ++ r.2.1.map some
    if acc1.length > 0 then some (r.1, acc1, r.2.2)
    else nextTokenLoop step fuel r.1 acc1 r.2.2

/-- Go `l.NextToken()`: on first use install the collecting sink and
cache the start state; if a queued token remains from a previous
over-production return it, otherwise repeatedly invoke state functions
until at least one token is queued or the chain terminates (in which
case a single `nil` end-of-output sentinel is queued); return the head
of the queue.  The outer `Option` is fuel exhaustion of the inner
loop. -/
def NextToken {σ : Type} (step : σ → L → L × List Token × Option σ)
    (start : σ) (fuel : Nat) (p : PTState σ) :
    Option (PTState σ × Option Token) :=
  let q := if p.hasNext then p else ⟨p.l, [], some start, true⟩
  match q.lastTokens with
  | t :: rest => some (⟨q.l, rest, q.nextState, q.hasNext⟩, t)
  | [] =>
    match nextTokenLoop step fuel q.l [] q.nextState with
    | none => none
    | some (l1, acc, nxt) =>
      let acc1 := if nxt.isNone then acc ++ [none] else acc
      match acc1 with
      | t :: rest => some (⟨l1, rest, nxt, q.hasNext⟩, t)
      | [] => some (⟨l1, [], nxt, q.hasNext⟩, none)

/-- Replaying a pull-mode scan through `NextTokens` start-to-end: call
`NextTokens` repeatedly (at most `calls` times), concatenating the
returned batches, until the end-of-output sentinel. -/
def replayNextTokens {σ : Type} (step : σ → L → L × List Token × Option σ)
    (start : σ) : Nat → NTState σ → Option (List Token)
  | 0, _ => none
  | calls + 1, p =>
    match NextTokens step start p with
    | (_, none) => some []
    | (p1, some toks) => (replayNextTokens step start calls p1).map (toks ++ ·)

/-- The sentinel entries at the tail of the `NextToken` queue: the `nil`
token is queued exactly when the cached next state is terminal. -/
def queueTail {σ : Type} : Option σ → List (Option Token)
  | none => [none]
  | some _ => []

/-- Replaying a pull-mode scan through `NextToken` start-to-end: call
`NextToken` repeatedly (at most `calls` times, with the given
invocation fuel per call), collecting the returned tokens, until the
`nil` end-of-output sentinel. -/
def replayNextToken {σ : Type} (step : σ → L → L × List Token × Option σ)
    (start : σ) (fuel : Nat) : Nat → PTState σ → Option (List Token)
  | 0, _ => none
  | calls + 1, p =>
    match NextToken step start fuel p with
    | none => none
    | some (_, none) => some []
    | some (p1, some t) => (replayNextToken step start fuel calls p1).map (t :: ·)

/-!
## The example state functions from the package's test file

`NumberState`, `IdentState`, `WhitespaceState` with token types
`NumberToken = 0`, `OpToken = 1`, `IdentToken = 2` (`iota`).
-/

/-- Token-type constants from the test file (`iota`). -/
def NumberToken : Int := 0

def OpToken : Int := 1

def IdentToken : Int := 2

/-- The three mutually referring example state functions, as a closed
state-function representation. -/
inductive RepoState where
  | number
  | ident
  | whitespace
  deriving DecidableEq, Repr

/-- `"0123456789"` as code points. -/
def digitChars : List Int := [48, 49, 50, 51, 52, 53, 54, 55, 56, 57]

/-- `" \t\n\r"` as code points. -/
def wsChars : List Int := [32, 9, 10, 13]

/-- `fmt.Sprintf("%q", r)` modelled for printable ASCII runes (the only
runes the embedded state functions quote): the rune between single
quotes. -/
def goQuoteRune (r : Int) : String :=
  "'" ++ (Char.ofNat r.toNat).toString ++ "'"

/-- The loop of `IdentState`:
`r := l.Next(); for (r >= 'a' && r <= 'z') || r == '_' { r = l.Next() }`,
fuelled. -/
def identLoop : Nat → L → L
  | 0, l => l
  | fuel + 1, l =>
    let lr := Next l
    if (97 ≤ lr.2 ∧ lr.2 ≤ 122) ∨ lr.2 = 95 then identLoop fuel lr.1
    else lr.1

/-- One invocation of the example state functions (test file):

* `NumberState`: `Take("0123456789"); Emit(NumberToken); if Peek() == '.'
  { Next(); Emit(OpToken); return IdentState }; return nil`.
* `IdentState`: scan `[a-z_]*`, `Rewind()`, `Emit(IdentToken)`, return
  `WhitespaceState`.
* `WhitespaceState`: `r := Next()`; at `EOFRune` return `nil`; on a
  non-whitespace rune raise `Error(fmt.Sprintf("unexpected token %q", r))`
  and return `nil` (the no-handler branch panics in Go and is modelled
  by returning the pre-`Error` state, unreachable in the scenarios
  considered); otherwise `Take(" \t\n\r"); Ignore()`, return
  `NumberState`. -/
def repoStep : RepoState → L → L × List Token × Option RepoState
  | .number, l =>
    let l1 := Take digitChars l
    let et := Emit NumberToken l1
    let pk := Peek et.1
    if pk.2 = 46 then
      let nx := Next pk.1
      let et2 := Emit OpToken nx.1
      (et2.1, [et.2, et2.2], some .ident)
    else
      (pk.1, [et.2], none)
  | .ident, l =>
    let l1 := identLoop (l.buf.length + l.source.length + 1) l
    let l2 := Rewind l1
    let et := Emit IdentToken l2
    (et.1, [et.2], some .whitespace)
  | .whitespace, l =>
    let nx := Next l
    if nx.2 = EOFRune then (nx.1, [], none)
    else if nx.2 ≠ 32 ∧ nx.2 ≠ 9 ∧ nx.2 ≠ 10 ∧ nx.2 ≠ 13 then
      match Error ("unexpected token " ++ goQuoteRune nx.2) nx.1 with
      | some l1 => (l1, [], none)
      | none => (nx.1, [], none)
    else
      let l1 := Take wsChars nx.1
      let l2 := Ignore l1
      (l2, [], some .number)

/-!
## Well-formed states over ASCII sources

A byte `< 0x80` decodes (by `utf8.DecodeRune` on the one-byte read
buffer) to the single-byte code point it is, so over ASCII sources the
byte-width bookkeeping of `position` coincides with code-point counting.
`WF` states this, together with the cursor inequalities; it is
established at construction and preserved by every public operation
(proved below), and is the hypothesis under which the cursor operations
behave as the spec describes.
-/

/-- The code points of the remaining (not yet consumed) input: the
unread buffered code points followed by the code points the source
bytes will decode to (for ASCII bytes, the bytes themselves). -/
def remaining (l : L) : List Int :=
  l.buf.drop l.position.toNat ++ l.source.map Int.ofNat

/-- Well-formedness over an ASCII source: cursor inequalities, all
buffered and pending code points ASCII, and the rewind stack holding
only ASCII code points or the sentinel. -/
def WF (l : L) : Prop :=
  0 ≤ l.start ∧ l.start ≤ l.position ∧ l.position ≤ (l.buf.length : Int) ∧
  (∀ r ∈ l.buf, 0 ≤ r ∧ r < 0x80) ∧
  (∀ b ∈ l.source, b < 0x80) ∧
  (∀ r ∈ l.rewind, r = EOFRune ∨ (0 ≤ r ∧ r < 0x80))

/-- The engine states reachable from a freshly constructed engine over
an ASCII source by any sequence of the public cursor and emission
operations. -/
inductive Reach : L → Prop
  | init (src : List Nat) (hasHandler : Bool) (hsrc : ∀ b ∈ src, b < 0x80) :
      Reach (New src hasHandler)
  | next {l : L} : Reach l → Reach (Next l).1
  | rewind {l : L} : Reach l → Reach (Rewind l)
  | peek {l : L} : Reach l → Reach (Peek l).1
  | take {l : L} (chars : List Int) : Reach l → Reach (Take chars l)
  | emit {l : L} (t : Int) : Reach l → Reach (Emit t l).1
  | ignore {l : L} : Reach l → Reach (Ignore l)

/-- A two-state demonstration grammar for the error channel: the first
state raises an error through `Error` and returns a successor state
(the `getD` branch covers the no-handler panic path, which the theorems
using this grammar never exercise); the successor emits one token of
kind 7 and terminates. -/
inductive DemoState where
  | raise
  | emitOne

/-- One invocation of the `DemoState` grammar. -/
def demoStep (e : String) : DemoState → L → L × List Token × Option DemoState
  | .raise, l => ((Error e l).getD l, [], some .emitOne)
  | .emitOne, l => ((Emit 7 l).1, [(Emit 7 l).2], none)

theorem runeLen_ascii {r : Int} (h0 : 0 ≤ r) (h1 : r < 0x80) :
    runeLen r = 1 := by
  unfold runeLen
  split_ifs <;> omega

theorem Next_buffered {l : L} (h : l.position < (l.buf.length : Int)) :
    Next l = ({ l with position := l.position + runeLen (l.buf.getD l.position.toNat 0),
                       rewind := l.buf.getD l.position.toNat 0 :: l.rewind },
              l.buf.getD l.position.toNat 0) := by
  simp [Next, h]

theorem Next_eof {l : L} (h : ¬ l.position < (l.buf.length : Int))
    (hs : l.source = []) :
    Next l = ({ l with rewind := EOFRune :: l.rewind }, EOFRune) := by
  simp [Next, h, hs]

theorem Next_read {l : L} (h : ¬ l.position < (l.buf.length : Int))
    {b : Nat} {rest : List Nat} (hs : l.source = b :: rest) :
    Next l = ({ l with source := rest, readbytes := l.readbytes + 1,
                       buf := l.buf ++ [(decodeByte b).1],
                       position := l.position + (decodeByte b).2,
                       rewind := (decodeByte b).1 :: l.rewind },
              (decodeByte b).1) := by
  simp [Next, h, hs]

theorem Rewind_nil {l : L} (h : l.rewind = []) : Rewind l = l := by
  unfold Rewind
  rw [h]

theorem Rewind_cons_pos {l : L} {r : Int} {rest : List Int}
    (h : l.rewind = r :: rest) (hr : r > EOFRune) :
    Rewind l = { l with rewind := rest
                        position := if l.position - runeLen r < l.start
                                    then l.start else l.position - runeLen r } := by
  unfold Rewind
  rw [h]
  simp [hr]

theorem Rewind_cons_neg {l : L} {r : Int} {rest : List Int}
    (h : l.rewind = r :: rest) (hr : ¬ r > EOFRune) :
    Rewind l = { l with rewind := rest } := by
  unfold Rewind
  rw [h]
  simp [hr]

/-- The behavior of one `Next` (and of the `Rewind` undoing it) on a
well-formed state: either the remaining input is empty and `Next`
returns the sentinel (with `Rewind` then a perfect no-op), or `Next`
returns the head of the remaining input, advancing `position` by one,
and `Rewind` moves `position` and the rewind stack back (leaving only
the possibly-grown buffer and byte counter behind). -/
theorem next_spec {l : L} (h : WF l) :
    (remaining l = [] ∧
      Next l = ({ l with rewind := EOFRune :: l.rewind }, EOFRune) ∧
      Rewind (Next l).1 = l) ∨
    (∃ r rest, remaining l = r :: rest ∧ 0 ≤ r ∧ r < 0x80 ∧ (Next l).2 = r ∧
      WF (Next l).1 ∧
      (Next l).1.start = l.start ∧
      (Next l).1.position = l.position + 1 ∧
      (Next l).1.readbytes = l.readbytes +
        (if l.position < (l.buf.length : Int) then 0 else 1) ∧
      (Next l).1.rewind = r :: l.rewind ∧
      remaining (Next l).1 = rest ∧
      Current (Next l).1 = Current l ++ [r] ∧
      Rewind (Next l).1 =
        { (Next l).1 with position := l.position, rewind := l.rewind } ∧
      Current (Rewind (Next l).1) = Current l ∧
      remaining (Rewind (Next l).1) = remaining l ∧
      WF (Rewind (Next l).1)) := by
  obtain ⟨hs0, hsp, hpl, hbuf, hsrc, hrw⟩ := h
  by_cases hb : l.position < (l.buf.length : Int)
  · -- an unread buffered code point remains
    right
    have hlt : l.position.toNat < l.buf.length := by omega
    have hrget : l.buf.getD l.position.toNat 0 = l.buf[l.position.toNat] :=
      List.getD_eq_getElem _ _ hlt
    set r := l.buf.getD l.position.toNat 0 with hrdef
    have hrmem : r ∈ l.buf := hrget ▸ List.getElem_mem hlt
    obtain ⟨hra0, hra1⟩ := hbuf r hrmem
    have hlen : runeLen r = 1 := runeLen_ascii hra0 hra1
    have hnext := Next_buffered hb
    have hstate : (Next l).1 =
        { l with position := l.position + 1, rewind := r :: l.rewind } := by
      rw [hnext, ← hrdef, hlen]
    have hsnd : (Next l).2 = r := by rw [hnext]
    have hrem : remaining l = r :: (l.buf.drop (l.position.toNat + 1) ++
        l.source.map Int.ofNat) := by
      unfold remaining
      rw [List.drop_eq_getElem_cons hlt, ← hrget, List.cons_append]
    have hrewind : Rewind (Next l).1 = l := by
      rw [hstate]
      rw [Rewind_cons_pos (l := { l with position := l.position + 1
                                         rewind := r :: l.rewind }) rfl
            (by unfold EOFRune; omega)]
      have h1 : l.position + 1 - runeLen r = l.position := by rw [hlen]; ring
      simp only [h1]
      rw [if_neg (by omega)]
    refine ⟨r, _, hrem, hra0, hra1, hsnd, ?_, ?_, ?_, ?_, ?_, ?_, ?_, ?_, ?_, ?_, ?_⟩
    · -- well-formedness of the post-Next state
      rw [hstate]
      refine ⟨hs0, by simpa using by omega, by simpa using by omega, hbuf, hsrc, ?_⟩
      intro x hx
      rcases List.mem_cons.mp hx with hx | hx
      · exact Or.inr (hx ▸ ⟨hra0, hra1⟩)
      · exact hrw x hx
    · rw [hstate]
    · rw [hstate]
    · rw [hstate]; simp [hb]
    · rw [hstate]
    · -- remaining after Next
      rw [hstate]
      unfold remaining
      have h1 : (l.position + 1).toNat = l.position.toNat + 1 := by omega
      simp only [h1]
    · -- Current grows by [r]
      rw [hstate]
      unfold Current
      simp only
      have h1 : (l.position + 1 - l.start).toNat = (l.position - l.start).toNat + 1 := by
        omega
      rw [h1, List.take_succ]
      congr 1
      rw [List.getElem?_drop]
      have h2 : l.start.toNat + (l.position - l.start).toNat = l.position.toNat := by
        omega
      rw [h2, List.getElem?_eq_getElem hlt, ← hrget]
      simp
    · -- Rewind restores position and stack
      rw [hrewind, hstate]
    · rw [hrewind]
    · rw [hrewind]
    · rw [hrewind]
      exact ⟨hs0, hsp, hpl, hbuf, hsrc, hrw⟩
  · -- no unread buffered code point: consult the source
    cases hsq : l.source with
    | nil =>
      left
      have hdrop : l.buf.drop l.position.toNat = [] :=
        List.drop_eq_nil_of_le (by omega)
      have hrem : remaining l = [] := by
        unfold remaining
        rw [hdrop, hsq]
        simp
      have hnext := Next_eof hb hsq
      rw [hsq] at hnext
      refine ⟨hrem, hnext, ?_⟩
      rw [hnext, ← hsq]
      rw [Rewind_cons_neg (l := { l with rewind := EOFRune :: l.rewind }) rfl
            (by unfold EOFRune; omega)]
    | cons b rest' =>
      right
      have hblt : b < 0x80 := hsrc b (by rw [hsq]; exact List.mem_cons_self b rest')
      have hbeq : decodeByte b = ((b : Int), 1) := by simp [decodeByte, hblt]
      have hposlen : l.position = (l.buf.length : Int) := by omega
      have hposnat : l.position.toNat = l.buf.length := by omega
      have hdrop : l.buf.drop l.position.toNat = [] :=
        List.drop_eq_nil_of_le (by omega)
      have hnext := Next_read hb hsq
      have hstate : (Next l).1 =
          { l with source := rest', readbytes := l.readbytes + 1
                   buf := l.buf ++ [(b : Int)], position := l.position + 1
                   rewind := (b : Int) :: l.rewind } := by
        rw [hnext, hbeq]
      have hsnd : (Next l).2 = (b : Int) := by rw [hnext, hbeq]
      have hrem : remaining l = (b : Int) :: rest'.map Int.ofNat := by
        unfold remaining
        rw [hdrop, hsq]
        simp
      have hcur : Current l = l.buf.drop l.start.toNat := by
        unfold Current
        exact List.take_of_length_le (by rw [List.length_drop]; omega)
      have hdropapp : (l.buf ++ [(b : Int)]).drop l.start.toNat =
          l.buf.drop l.start.toNat ++ [(b : Int)] :=
        List.drop_append_of_le_length (by omega)
      have hrewind : Rewind (Next l).1 =
          { (Next l).1 with position := l.position, rewind := l.rewind } := by
        rw [hstate]
        rw [Rewind_cons_pos (l := { l with source := rest'
                                           readbytes := l.readbytes + 1
                                           buf := l.buf ++ [(b : Int)]
                                           position := l.position + 1
                                           rewind := (b : Int) :: l.rewind }) rfl
              (by unfold EOFRune; omega)]
        have h1 : l.position + 1 - runeLen (b : Int) = l.position := by
          rw [runeLen_ascii (by omega) (by exact_mod_cast hblt)]; ring
        simp only [h1]
        rw [if_neg (by omega)]
      refine ⟨(b : Int), _, hrem, by omega, by exact_mod_cast hblt, hsnd,
        ?_, ?_, ?_, ?_, ?_, ?_, ?_, ?_, ?_, ?_, ?_⟩
      · -- well-formedness of the post-Next state
        rw [hstate]
        refine ⟨hs0, by simpa using by omega, ?_, ?_, ?_, ?_⟩
        · simp; omega
        · intro x hx
          rcases List.mem_append.mp hx with hx | hx
          · exact hbuf x hx
          · have : x = (b : Int) := by simpa using hx
            exact this ▸ ⟨by omega, by exact_mod_cast hblt⟩
        · intro x hx
          exact hsrc x (by rw [hsq]; exact List.mem_cons_of_mem b hx)
        · intro x hx
          rcases List.mem_cons.mp hx with hx | hx
          · exact Or.inr (hx ▸ ⟨by omega, by exact_mod_cast hblt⟩)
          · exact hrw x hx
      · rw [hstate]
      · rw [hstate]
      · rw [hstate]; simp [hb]
      · rw [hstate]
      · -- remaining after Next
        rw [hstate]
        unfold remaining
        simp only
        rw [List.drop_eq_nil_of_le (by simp; omega)]
        simp
      · -- Current grows by [b]
        have hcurN : Current (Next l).1 = l.buf.drop l.start.toNat ++ [(b : Int)] := by
          rw [hstate]
          unfold Current
          simp only
          rw [hdropapp]
          exact List.take_of_length_le (by simp [List.length_drop]; omega)
        rw [hcurN, hcur]
      · exact hrewind
      · -- Current after the rewind
        have hcurR : Current (Rewind (Next l).1) =
            (l.buf.drop l.start.toNat).take (l.position - l.start).toNat := by
          rw [hrewind, hstate]
          unfold Current
          simp only
          rw [hdropapp]
          exact List.take_append_of_le_length (by rw [List.length_drop]; omega)
        rw [hcurR]
        exact rfl
      · -- remaining after the rewind
        rw [hrewind, hstate]
        unfold remaining
        simp only
        rw [List.drop_append_of_le_length (by omega), hdrop]
        rw [hsq]
        simp
      · -- well-formedness after the rewind
        rw [hrewind, hstate]
        refine ⟨hs0, hsp, ?_, ?_, ?_, hrw⟩
        · simp; omega
        · intro x hx
          rcases List.mem_append.mp hx with hx | hx
          · exact hbuf x hx
          · have : x = (b : Int) := by simpa using hx
            exact this ▸ ⟨by omega, by exact_mod_cast hblt⟩
        · intro x hx
          exact hsrc x (by rw [hsq]; exact List.mem_cons_of_mem b hx)

theorem next_snd {l : L} (h : WF l) :
    (Next l).2 = (remaining l).headD EOFRune := by
  rcases next_spec h with ⟨hrem, hnext, _⟩ | ⟨r, rest, hrem, _, _, hsnd, _⟩
  · rw [hrem, hnext]
    rfl
  · rw [hsnd, hrem]
    rfl

theorem WF_New {src : List Nat} {hh : Bool} (hsrc : ∀ b ∈ src, b < 0x80) :
    WF (New src hh) := by
  refine ⟨le_refl 0, le_refl 0, by simp [New], by simp [New], ?_, by simp [New]⟩
  simpa [New] using hsrc

theorem WF_Next {l : L} (h : WF l) : WF (Next l).1 := by
  rcases next_spec h with ⟨_, hnext, _⟩ | ⟨r, rest, _, _, _, _, hwf, _⟩
  · rw [hnext]
    obtain ⟨hs0, hsp, hpl, hbuf, hsrc, hrw⟩ := h
    refine ⟨hs0, hsp, hpl, hbuf, hsrc, ?_⟩
    intro x hx
    rcases List.mem_cons.mp hx with hx | hx
    · exact Or.inl hx
    · exact hrw x hx
  · exact hwf

theorem WF_Rewind {l : L} (h : WF l) : WF (Rewind l) := by
  obtain ⟨hs0, hsp, hpl, hbuf, hsrc, hrw⟩ := h
  cases hq : l.rewind with
  | nil =>
    rw [Rewind_nil hq]
    exact ⟨hs0, hsp, hpl, hbuf, hsrc, hrw⟩
  | cons r rest =>
    have hmem : ∀ x ∈ rest, x = EOFRune ∨ 0 ≤ x ∧ x < 0x80 := fun x hx =>
      hrw x (hq ▸ List.mem_cons_of_mem r hx)
    rcases hrw r (hq ▸ List.mem_cons_self r rest) with hr | hr
    · rw [Rewind_cons_neg hq (by rw [hr]; unfold EOFRune; omega)]
      exact ⟨hs0, hsp, hpl, hbuf, hsrc, hmem⟩
    · have hlen : runeLen r = 1 := runeLen_ascii hr.1 hr.2
      rw [Rewind_cons_pos hq (by unfold EOFRune; omega)]
      refine ⟨hs0, ?_, ?_, hbuf, hsrc, hmem⟩
      · simp only
        split_ifs <;> omega
      · simp only
        split_ifs <;> omega

theorem WF_Peek {l : L} (h : WF l) : WF (Peek l).1 := by
  simp only [Peek]
  exact WF_Rewind (WF_Next h)

theorem WF_Emit {l : L} (t : Int) (h : WF l) : WF (Emit t l).1 := by
  obtain ⟨hs0, hsp, hpl, hbuf, hsrc, hrw⟩ := h
  refine ⟨le_refl 0, le_refl 0, by simp [Emit], ?_, hsrc, by simp [Emit]⟩
  intro x hx
  exact hbuf x (List.mem_of_mem_drop hx)

theorem WF_Ignore {l : L} (h : WF l) : WF (Ignore l) := by
  obtain ⟨hs0, hsp, hpl, hbuf, hsrc, hrw⟩ := h
  refine ⟨le_refl 0, le_refl 0, by simp [Ignore], ?_, hsrc, by simp [Ignore]⟩
  intro x hx
  exact hbuf x (List.mem_of_mem_drop hx)

theorem WF_takeLoop (chars : List Int) :
    ∀ fuel (l : L), WF l → WF (takeLoop chars fuel l)
  | 0, l, h => h
  | fuel + 1, l, h => by
    simp only [takeLoop]
    by_cases hmem : (Next l).2 ∈ chars
    · simp only [hmem, if_true]
      exact WF_takeLoop chars fuel _ (WF_Next h)
    · simp only [hmem, if_false]
      exact WF_Rewind (WF_Next h)

theorem WF_Take {chars : List Int} {l : L} (h : WF l) : WF (Take chars l) :=
  WF_takeLoop chars _ l h

theorem WF_of_Reach {l : L} (h : Reach l) : WF l := by
  induction h with
  | init src hasHandler hsrc => exact WF_New hsrc
  | next _ ih => exact WF_Next ih
  | rewind _ ih => exact WF_Rewind ih
  | peek _ ih => exact WF_Peek ih
  | take chars _ ih => exact WF_Take ih
  | emit t _ ih => exact WF_Emit t ih
  | ignore _ ih => exact WF_Ignore ih

/-- The loop of `Take` consumes exactly the maximal prefix of the
remaining input whose code points are members of the accept set, and
leaves the state well formed with the first non-member (if any) the
next code point to be consumed. -/
theorem takeLoop_spec (chars : List Int) (hEOF : EOFRune ∉ chars) :
    ∀ fuel (l : L), WF l → (remaining l).length + 1 ≤ fuel →
      WF (takeLoop chars fuel l) ∧
      (takeLoop chars fuel l).start = l.start ∧
      (takeLoop chars fuel l).position =
        l.position + ((remaining l).takeWhile (fun r => decide (r ∈ chars))).length ∧
      Current (takeLoop chars fuel l) =
        Current l ++ (remaining l).takeWhile (fun r => decide (r ∈ chars)) ∧
      remaining (takeLoop chars fuel l) =
        (remaining l).dropWhile (fun r => decide (r ∈ chars)) := by
  intro fuel
  induction fuel with
  | zero =>
    intro l h hle
    exact absurd hle (by omega)
  | succ fuel ih =>
    intro l h hle
    rcases next_spec h with ⟨hrem, hnext, hundo⟩ |
      ⟨r, rest, hrem, hr0, hr1, hsnd, hwf, hstart, hpos, _, _, hremN, hcurN,
        hrwE, hcurR, hremR, hwfR⟩
    · -- the remaining input is empty: Next yields the sentinel, which is
      -- not a member, and the final Rewind is a no-op
      have hnotin : (Next l).2 ∉ chars := by
        rw [hnext]
        simpa using hEOF
      simp only [takeLoop]
      rw [if_neg hnotin, hundo, hrem]
      exact ⟨h, rfl, by simp, by simp, rfl⟩
    · by_cases hmem : r ∈ chars
      · -- a member: consume it and continue
        have hin : (Next l).2 ∈ chars := by rw [hsnd]; exact hmem
        simp only [takeLoop]
        rw [if_pos hin]
        obtain ⟨ihwf, ihstart, ihpos, ihcur, ihrem⟩ :=
          ih (Next l).1 hwf (by
            rw [hremN]
            rw [hrem] at hle
            simp only [List.length_cons] at hle
            omega)
        refine ⟨ihwf, by rw [ihstart, hstart], ?_, ?_, ?_⟩
        · rw [ihpos, hpos, hremN, hrem,
            List.takeWhile_cons_of_pos (by simp [hmem])]
          simp only [List.length_cons]
          push_cast
          ring
        · rw [ihcur, hcurN, hremN, hrem,
            List.takeWhile_cons_of_pos (by simp [hmem])]
          simp
        · rw [ihrem, hremN, hrem,
            List.dropWhile_cons_of_pos (by simp [hmem])]
      · -- the first non-member: rewind it back
        have hnotin : (Next l).2 ∉ chars := by rw [hsnd]; exact hmem
        simp only [takeLoop]
        rw [if_neg hnotin]
        refine ⟨hwfR, ?_, ?_, ?_, ?_⟩
        · rw [hrwE]
          exact hstart
        · rw [hrwE, hrem, List.takeWhile_cons_of_neg (by simp [hmem])]
          simp
        · rw [hcurR, hrem, List.takeWhile_cons_of_neg (by simp [hmem])]
          simp
        · rw [hremR, hrem, List.dropWhile_cons_of_neg (by simp [hmem])]

/-- `Take` over a well-formed state: the maximal accepted prefix of the
remaining input is consumed (extending `Current` and `position` by it),
and the first non-member — or the end-of-stream sentinel — is what the
next `Next` returns. -/
theorem Take_spec (chars : List Int) (hEOF : EOFRune ∉ chars) (l : L)
    (h : WF l) :
    WF (Take chars l) ∧
    (Take chars l).start = l.start ∧
    (Take chars l).position =
      l.position + ((remaining l).takeWhile (fun r => decide (r ∈ chars))).length ∧
    Current (Take chars l) =
      Current l ++ (remaining l).takeWhile (fun r => decide (r ∈ chars)) ∧
    remaining (Take chars l) =
      (remaining l).dropWhile (fun r => decide (r ∈ chars)) ∧
    (Next (Take chars l)).2 =
      ((remaining l).dropWhile (fun r => decide (r ∈ chars))).headD EOFRune := by
  have hfuel : (remaining l).length + 1 ≤ l.buf.length + l.source.length + 1 := by
    unfold remaining
    rw [List.length_append, List.length_drop, List.length_map]
    omega
  obtain ⟨hwf, hstart, hpos, hcur, hrem⟩ := takeLoop_spec chars hEOF _ l h hfuel
  exact ⟨hwf, hstart, hpos, hcur, hrem, by unfold Take; rw [next_snd hwf, hrem]⟩

theorem Scan_none {σ : Type} (step : σ → L → L × List Token × Option σ)
    (l : L) (fuel : Nat) : Scan step none l fuel = some (l, []) := by
  cases fuel <;> rfl

theorem Scan_succ {σ : Type} (step : σ → L → L × List Token × Option σ)
    (s : σ) (l : L) (fuel : Nat) :
    Scan step (some s) l (fuel + 1) =
      (Scan step (step s l).2.2 (step s l).1 fuel).map
        (fun q => (q.1, (step s l).2.1 :: q.2)) := rfl

/-!
## Claims C2 to C6 and C8 to C10
-/

/-- Claim C2, counterexample to the original claim: over a source whose
byte `0x80` does not decode to a single-byte code point, the engine
state after a `Peek` followed by a `Next` (a state reached from the
fresh engine by two public operations) violates
`position ≤ len(buffer)`: `position` is 3 while the buffer holds one
code point. -/
theorem C2_counterexample :
    ¬ ((Next (Peek (New [128] true)).1).1.position ≤
        (((Next (Peek (New [128] true)).1).1.buf.length : Int))) := by
  decide

/-- Claim C2, amended: for every engine state reachable from a freshly
constructed engine by any sequence of the public cursor and emission
operations over a source all of whose bytes decode to single-byte
(ASCII) code points, `0 ≤ start ≤ position ≤ len(buffer)` holds. -/
theorem C2_invariant {l : L} (h : Reach l) :
    0 ≤ l.start ∧ l.start ≤ l.position ∧ l.position ≤ (l.buf.length : Int) := by
  obtain ⟨h1, h2, h3, _, _, _⟩ := WF_of_Reach h
  exact ⟨h1, h2, h3⟩

/-- Witness for `C2_invariant` at a concrete reachable state. -/
theorem C2_invariant_witness :
    0 ≤ (Next (New [49] true)).1.start ∧
    (Next (New [49] true)).1.start ≤ (Next (New [49] true)).1.position ∧
    (Next (New [49] true)).1.position ≤
      (((Next (New [49] true)).1.buf.length : Int)) :=
  C2_invariant (Reach.next (Reach.init [49] true (by decide)))

/-- Claim C3, counterexample: a `Peek` that pulls fresh input advances
the bytes-read counter (from 0 to 1 on the source `"1"`); moreover,
after consuming `'a'` from the source `"a\x80"`, a `Peek` changes
`Current()` from `"a"` to `""` (the pulled byte decodes to U+FFFD whose
three-byte width is subtracted on rewind and clamped). -/
theorem C3_counterexample :
    (ReadBytes (New [49] true) = 0 ∧ ReadBytes (Peek (New [49] true)).1 = 1) ∧
    (Current (Next (New [97, 128] true)).1 = [97] ∧
      Current (Peek (Next (New [97, 128] true)).1).1 = []) := by
  decide

/-- Claim C3, amended: on a well-formed state over an ASCII source,
`Peek` leaves `Current()`, `start` and `position` unchanged; the
bytes-read counter is unchanged when an unread buffered code point
remains or the stream is exhausted, and increases by the one byte read
when `Peek` must pull fresh input. -/
theorem C3_peek_frame {l : L} (h : WF l) :
    Current (Peek l).1 = Current l ∧
    (Peek l).1.start = l.start ∧
    (Peek l).1.position = l.position ∧
    ReadBytes (Peek l).1 = ReadBytes l +
      (if l.position < (l.buf.length : Int) ∨ l.source = [] then 0 else 1) := by
  have hp : (Peek l).1 = Rewind (Next l).1 := rfl
  rcases next_spec h with ⟨hrem, hnext, hundo⟩ |
    ⟨r, rest, hrem, _, _, _, _, hstart, _, hrb, _, _, _, hrwE, hcurR, _, _⟩
  · have hsrcnil : l.source = [] := by
      unfold remaining at hrem
      rcases List.append_eq_nil.mp hrem with ⟨_, hm⟩
      exact List.map_eq_nil_iff.mp hm
    rw [hp, hundo]
    exact ⟨rfl, rfl, rfl, by simp [hsrcnil]⟩
  · refine ⟨by rw [hp]; exact hcurR, by rw [hp, hrwE]; exact hstart,
      by rw [hp, hrwE], ?_⟩
    unfold ReadBytes
    rw [hp, hrwE]
    show (Next l).1.readbytes = _
    rw [hrb]
    by_cases hbl : l.position < (l.buf.length : Int)
    · simp [hbl]
    · have hsrcne : l.source ≠ [] := by
        intro hq
        have : remaining l = [] := by
          unfold remaining
          rw [hq, List.drop_eq_nil_of_le (by omega)]
          simp
        rw [hrem] at this
        exact List.cons_ne_nil _ _ this
      simp [hbl, hsrcne]

/-- Witness for `C3_peek_frame` on the fresh engine over the source
`"1"`. -/
theorem C3_peek_frame_witness :
    Current (Peek (New [49] true)).1 = Current (New [49] true) ∧
    (Peek (New [49] true)).1.start = (New [49] true).start ∧
    (Peek (New [49] true)).1.position = (New [49] true).position ∧
    ReadBytes (Peek (New [49] true)).1 = ReadBytes (New [49] true) +
      (if (New [49] true).position < (((New [49] true).buf.length : Int)) ∨
          (New [49] true).source = [] then 0 else 1) :=
  C3_peek_frame ⟨by decide, by decide, by decide, by decide, by decide, by decide⟩

/-- Claim C4, counterexample to the original claim: on the source
`"a\x80"` with accept set `{'a'}`, the claim predicts that `Take`
consumes the maximal accepted prefix `"a"` and that the next `Next`
returns the first non-member (U+FFFD, from the byte `0x80`); instead
the final rewind of the non-member subtracts U+FFFD's three-byte width,
clamps to `start`, and un-consumes the `'a'` as well: `Current()` ends
empty and the next `Next` returns `'a'` again. -/
theorem C4_counterexample :
    Current (Take [97] (New [97, 128] true)) = [] ∧
    (Next (Take [97] (New [97, 128] true))).2 = 97 := by
  decide

/-- Claim C4, amended: on a well-formed state over an ASCII source (and
an accept set, which never contains the sentinel since Go strings hold
only real code points), `Take` consumes exactly the maximal prefix of
the remaining input whose code points are members of the set, and the
first non-member code point — or the end-of-stream sentinel — is left
unconsumed, so the next `Next` returns it. -/
theorem C4_take_maximal (chars : List Int) {l : L} (h : WF l)
    (hEOF : EOFRune ∉ chars) :
    Current (Take chars l) =
      Current l ++ (remaining l).takeWhile (fun r => decide (r ∈ chars)) ∧
    (Take chars l).position =
      l.position + ((remaining l).takeWhile (fun r => decide (r ∈ chars))).length ∧
    (Next (Take chars l)).2 =
      ((remaining l).dropWhile (fun r => decide (r ∈ chars))).headD EOFRune := by
  obtain ⟨_, _, hpos, hcur, _, hnext⟩ := Take_spec chars hEOF l h
  exact ⟨hcur, hpos, hnext⟩

/-- Witness for `C4_take_maximal`: taking digits on the source
`"12a"`. -/
theorem C4_take_maximal_witness :
    Current (Take digitChars (New [49, 50, 97] true)) =
      Current (New [49, 50, 97] true) ++
        (remaining (New [49, 50, 97] true)).takeWhile
          (fun r => decide (r ∈ digitChars)) ∧
    (Take digitChars (New [49, 50, 97] true)).position =
      (New [49, 50, 97] true).position +
        ((remaining (New [49, 50, 97] true)).takeWhile
          (fun r => decide (r ∈ digitChars))).length ∧
    (Next (Take digitChars (New [49, 50, 97] true))).2 =
      ((remaining (New [49, 50, 97] true)).dropWhile
        (fun r => decide (r ∈ digitChars))).headD EOFRune :=
  C4_take_maximal digitChars
    ⟨by decide, by decide, by decide, by decide, by decide, by decide⟩
    (by decide)

/-- Claim C5: after `Emit(kind)` — for any kind, including over a
zero-length span — `Current()` is the empty string, and any `Rewind`
issued before the next `Next` is a no-op (it leaves the whole state,
in particular `start`, `position` and `Current()`, unchanged).  The
hypotheses restrict to states on which Go's slice expression
`buf[position:]` inside `Emit` is defined. -/
theorem C5_emit_resets (t : Int) (l : L) (_h0 : 0 ≤ l.position)
    (_h1 : l.position ≤ (l.buf.length : Int)) :
    Current (Emit t l).1 = [] ∧ Rewind (Emit t l).1 = (Emit t l).1 := by
  constructor
  · unfold Current Emit
    simp
  · exact Rewind_nil rfl

/-- Witness for `C5_emit_resets` after consuming one code point of
`"1"`. -/
theorem C5_emit_resets_witness :
    Current (Emit 3 (Next (New [49] true)).1).1 = [] ∧
    Rewind (Emit 3 (Next (New [49] true)).1).1 =
      (Emit 3 (Next (New [49] true)).1).1 :=
  C5_emit_resets 3 _ (by decide) (by decide)

/-- Claim C6: when the source reports zero bytes available (and no
unread buffered code point remains, so `Next` actually consults the
source), `Next` returns the end-of-stream sentinel, appends nothing to
the buffer, does not advance the bytes-read counter (the whole state is
unchanged except the sentinel pushed on the rewind stack), and a
`Rewind` popping the sentinel restores the state exactly — in
particular it changes neither `position` nor `start`. -/
theorem C6_eof_next (l : L) (h1 : l.source = [])
    (h2 : (l.buf.length : Int) ≤ l.position) :
    Next l = ({ l with rewind := EOFRune :: l.rewind }, EOFRune) ∧
    Rewind (Next l).1 = l := by
  have hb : ¬ l.position < (l.buf.length : Int) := by omega
  have hnext := Next_eof hb h1
  refine ⟨by rw [hnext, h1], ?_⟩
  rw [hnext]
  rw [Rewind_cons_neg (l := { l with rewind := EOFRune :: l.rewind }) rfl
        (by unfold EOFRune; omega)]

/-- Witness for `C6_eof_next` on the fresh engine over the empty
source. -/
theorem C6_eof_next_witness :
    Next (New [] true) =
      ({ New [] true with rewind := EOFRune :: (New [] true).rewind },
        EOFRune) ∧
    Rewind (Next (New [] true)).1 = New [] true :=
  C6_eof_next (New [] true) (by decide) (by decide)

/-- Claim C8: with an error handler registered, `Error(message)` records
the message as the engine's persisted error value and invokes the
handler exactly once, and the push driver does not stop on its own (in
the demonstration grammar, the invocation after the error-raising one
still runs and emits its token, and the recorded error persists to the
end of the scan); with no handler registered, `Error(message)` aborts
(no recoverable result). -/
theorem C8_error_channel (l : L) (e : String) :
    (l.hasErrorHandler = true →
      Error e l = some { l with Err := some e, errorCalls := l.errorCalls + 1 } ∧
      ∃ lf, Scan (demoStep e) (some DemoState.raise) l 2 =
            some (lf, [[], [{ type := 7, value := Current l }]]) ∧
          lf.Err = some e) ∧
    (l.hasErrorHandler = false → Error e l = none) := by
  constructor
  · intro hh
    have hErr : Error e l =
        some { l with Err := some e, errorCalls := l.errorCalls + 1 } := by
      unfold Error
      simp [hh]
    refine ⟨hErr, ?_⟩
    have h2 : Scan (demoStep e) (some DemoState.raise) l 2 =
        (Scan (demoStep e) (some DemoState.emitOne) ((Error e l).getD l) 1).map
          (fun q => (q.1, ([] : List Token) :: q.2)) := rfl
    rw [hErr] at h2
    simp only [Option.getD_some] at h2
    have h3 : Scan (demoStep e) (some DemoState.emitOne)
        { l with Err := some e, errorCalls := l.errorCalls + 1 } 1 =
        some ((Emit 7 { l with Err := some e
                               errorCalls := l.errorCalls + 1 }).1,
          [[(Emit 7 { l with Err := some e
                             errorCalls := l.errorCalls + 1 }).2]]) := rfl
    rw [h3] at h2
    simp only [Option.map_some'] at h2
    exact ⟨_, h2, rfl⟩
  · intro hh
    unfold Error
    simp [hh]

/-- Witness for `C8_error_channel`, at fresh engines with and without a
registered handler. -/
theorem C8_error_channel_witness :
    Error "boom" (New [] true) =
      some { New [] true with Err := some "boom"
                              errorCalls := (New [] true).errorCalls + 1 } ∧
    Error "boom" (New [] false) = none :=
  ⟨((C8_error_channel (New [] true) "boom").1 rfl).1,
   (C8_error_channel (New [] false) "boom").2 rfl⟩

/-- Claim C9: scanning the input `"1"` in push mode from the
whitespace-only start state (with a handler registered) emits no
tokens, invokes the handler exactly once, and leaves the persisted
error value `"unexpected token '1'"`, referencing the offending code
point. -/
theorem C9_whitespace_error_scenario :
    (Scan repoStep (some RepoState.whitespace) (New [49] true) 2).map
        (fun q => (q.2.flatten, q.1.Err, q.1.errorCalls)) =
      some ([], some "unexpected token '1'", 1) := by
  decide

/-- Claim C10: with a handler registered, `Error(message)` mutates only
the persisted error value (and invokes the handler): the code-point
buffer, both cursors, the rewind stack, the bytes-read counter and the
remaining source are unchanged.  (The current/next state-function
references live outside `L` in the pull-protocol wrappers, which
`Error` does not touch.) -/
theorem C10_error_frame (l : L) (e : String) (h : l.hasErrorHandler = true) :
    ∃ l1, Error e l = some l1 ∧ l1.buf = l.buf ∧ l1.start = l.start ∧
      l1.position = l.position ∧ l1.rewind = l.rewind ∧
      l1.readbytes = l.readbytes ∧ l1.source = l.source ∧ l1.Err = some e := by
  refine ⟨{ l with Err := some e, errorCalls := l.errorCalls + 1 },
    ?_, rfl, rfl, rfl, rfl, rfl, rfl, rfl⟩
  unfold Error
  simp [h]

/-- Claim C7 helper: `NextTokens` on a pull state with `hasNext` set. -/
theorem NextTokens_hasNext {σ : Type} (step : σ → L → L × List Token × Option σ)
    (start : σ) (l : L) (ts : List Token) (s : σ) :
    NextTokens step start ⟨l, ts, s, true⟩ =
      (match (step s l).2.2 with
       | none => (⟨(step s l).1, [], start, false⟩, none)
       | some s2 => (⟨(step s l).1, [], s2, true⟩, some (ts ++ (step s l).2.1))) := rfl

/-- Claim C7 helper: a `NextTokens` call on a pull state with `hasNext`
unset first resets the collected tokens and caches the start state. -/
theorem NextTokens_fresh {σ : Type} (step : σ → L → L × List Token × Option σ)
    (start : σ) (l : L) (ts : List Token) (s : σ) :
    NextTokens step start ⟨l, ts, s, false⟩ =
      NextTokens step start ⟨l, [], start, true⟩ := rfl

/-- Claim C7: each `NextTokens` call invokes exactly one state function
(the engine state of the result is that single invocation's); when the
invocation returns a successor, the call returns every token it emitted
(zero, one or many) and caches the successor; when it returns the
terminal signal, the call instead returns the end-of-output sentinel
and resets the pull state, and a subsequent call begins a fresh pull
sequence from the start state. -/
theorem C7_nextTokens {σ : Type} (step : σ → L → L × List Token × Option σ)
    (start : σ) (p : NTState σ) (h : p.lastTokens = []) :
    (NextTokens step start p).1.l =
      (step (if p.hasNext then p.nextState else start) p.l).1 ∧
    (∀ s, (step (if p.hasNext then p.nextState else start) p.l).2.2 = some s →
      NextTokens step start p =
        (⟨(step (if p.hasNext then p.nextState else start) p.l).1, [], s, true⟩,
         some (step (if p.hasNext then p.nextState else start) p.l).2.1)) ∧
    ((step (if p.hasNext then p.nextState else start) p.l).2.2 = none →
      NextTokens step start p =
        (⟨(step (if p.hasNext then p.nextState else start) p.l).1, [], start,
          false⟩, none)) ∧
    (∀ (l2 : L) (ts : List Token) (s2 : σ),
      NextTokens step start ⟨l2, ts, s2, false⟩ =
        NextTokens step start ⟨l2, [], start, true⟩) := by
  obtain ⟨pl, pt, pn, ph⟩ := p
  simp only [NTState.lastTokens] at h
  subst h
  cases ph with
  | true =>
    simp only [NTState.hasNext, NTState.nextState, NTState.l, if_true]
    cases hnx : (step pn pl).2.2 with
    | none =>
      refine ⟨?_, ?_, ?_, fun l2 ts s2 => NextTokens_fresh step start l2 ts s2⟩
      · rw [NextTokens_hasNext, hnx]
      · intro s hs
        exact Option.noConfusion hs
      · intro _
        rw [NextTokens_hasNext, hnx]
    | some s2 =>
      refine ⟨?_, ?_, ?_, fun l2 ts s2 => NextTokens_fresh step start l2 ts s2⟩
      · rw [NextTokens_hasNext, hnx]
      · intro s hs
        injection hs with hq
        subst hq
        rw [NextTokens_hasNext, hnx]
        simp
      · intro hs
        exact Option.noConfusion hs
  | false =>
    simp only [NTState.hasNext, NTState.nextState, NTState.l, Bool.false_eq_true,
      if_false]
    rw [NextTokens_fresh]
    cases hnx : (step start pl).2.2 with
    | none =>
      refine ⟨?_, ?_, ?_, fun l2 ts s2 => NextTokens_fresh step start l2 ts s2⟩
      · rw [NextTokens_hasNext, hnx]
      · intro s hs
        exact Option.noConfusion hs
      · intro _
        rw [NextTokens_hasNext, hnx]
    | some s2 =>
      refine ⟨?_, ?_, ?_, fun l2 ts s2 => NextTokens_fresh step start l2 ts s2⟩
      · rw [NextTokens_hasNext, hnx]
      · intro s hs
        injection hs with hq
        subst hq
        rw [NextTokens_hasNext, hnx]
        simp
      · intro hs
        exact Option.noConfusion hs

/-- Witness for `C7_nextTokens`: on the source `" 1"` from the
whitespace start state, the single invocation returns `some .number`
and the call returns its (empty) token batch. -/
theorem C7_nextTokens_witness :
    (NextTokens repoStep RepoState.whitespace
        ⟨New [32, 49] true, [], RepoState.whitespace, false⟩).2 = some [] := by
  have h := (C7_nextTokens repoStep RepoState.whitespace
      ⟨New [32, 49] true, [], RepoState.whitespace, false⟩ rfl).2.1
      RepoState.number (by decide)
  rw [h]
  decide

/-!
## Claim C1: push-mode versus pull-mode replay

Helper lemmas about the fuelled drivers, then the equivalence.
-/

theorem Scan_some_zero {σ : Type} (step : σ → L → L × List Token × Option σ)
    (s : σ) (l : L) : Scan step (some s) l 0 = none := rfl

theorem Scan_mono {σ : Type} (step : σ → L → L × List Token × Option σ) :
    ∀ (n n2 : Nat) (os : Option σ) (l : L) (r : L × List (List Token)),
      Scan step os l n = some r → n ≤ n2 → Scan step os l n2 = some r := by
  intro n
  induction n with
  | zero =>
    intro n2 os l r h hle
    cases os with
    | none =>
      rw [Scan_none] at h
      rw [Scan_none]
      exact h
    | some s => exact absurd h (by rw [Scan_some_zero]; exact Option.noConfusion)
  | succ n ih =>
    intro n2 os l r h hle
    cases os with
    | none =>
      rw [Scan_none] at h
      rw [Scan_none]
      exact h
    | some s =>
      obtain ⟨n3, rfl⟩ : ∃ m, n2 = m + 1 := ⟨n2 - 1, by omega⟩
      rw [Scan_succ] at h
      rw [Scan_succ]
      cases hq : Scan step (step s l).2.2 (step s l).1 n with
      | none =>
        rw [hq] at h
        exact absurd h (by simp)
      | some q =>
        rw [hq] at h
        rw [ih n3 _ _ _ hq (by omega)]
        exact h

theorem Scan_ne_nil {σ : Type} (step : σ → L → L × List Token × Option σ)
    (s : σ) (l : L) (n : Nat) (l2 : L) (bs : List (List Token))
    (h : Scan step (some s) l n = some (l2, bs)) : bs ≠ [] := by
  cases n with
  | zero => exact absurd h (by rw [Scan_some_zero]; exact Option.noConfusion)
  | succ n =>
    rw [Scan_succ] at h
    cases hq : Scan step (step s l).2.2 (step s l).1 n with
    | none =>
      rw [hq] at h
      exact absurd h (by simp)
    | some q =>
      rw [hq] at h
      simp only [Option.map_some', Option.some.injEq, Prod.mk.injEq] at h
      obtain ⟨_, hbs⟩ := h
      rw [← hbs]
      exact List.cons_ne_nil _ _

theorem flatten_replicate_nil (k : Nat) :
    (List.replicate k ([] : List Token)).flatten = [] := by
  induction k with
  | zero => rfl
  | succ k ih => simp [List.replicate_succ, ih]

theorem NextTokens_terminal {σ : Type} (step : σ → L → L × List Token × Option σ)
    (start : σ) (l : L) (ts : List Token) (s : σ)
    (hnx : (step s l).2.2 = none) :
    NextTokens step start ⟨l, ts, s, true⟩ =
      (⟨(step s l).1, [], start, false⟩, none) := by
  rw [NextTokens_hasNext, hnx]

theorem NextTokens_step {σ : Type} (step : σ → L → L × List Token × Option σ)
    (start : σ) (l : L) (ts : List Token) (s s2 : σ)
    (hnx : (step s l).2.2 = some s2) :
    NextTokens step start ⟨l, ts, s, true⟩ =
      (⟨(step s l).1, [], s2, true⟩, some (ts ++ (step s l).2.1)) := by
  rw [NextTokens_hasNext, hnx]

theorem replayNextTokens_succ {σ : Type}
    (step : σ → L → L × List Token × Option σ) (start : σ) (c : Nat)
    (p : NTState σ) :
    replayNextTokens step start (c + 1) p =
      (match NextTokens step start p with
       | (_, none) => some []
       | (p1, some toks) =>
         (replayNextTokens step start c p1).map (toks ++ ·)) := rfl

/-- The `NextTokens` replay of a run that the push driver completes in
`n` invocations returns the concatenation of all its per-invocation
token batches except the last (the batch of the invocation that
returned the terminal signal, which `NextTokens` discards). -/
theorem replayNextTokens_spec {σ : Type}
    (step : σ → L → L × List Token × Option σ) (start : σ) :
    ∀ (n : Nat) (s : σ) (l l2 : L) (bs : List (List Token)),
      Scan step (some s) l n = some (l2, bs) →
      ∀ c, n ≤ c →
        replayNextTokens step start c ⟨l, [], s, true⟩ =
          some bs.dropLast.flatten := by
  intro n
  induction n with
  | zero =>
    intro s l l2 bs h c hle
    exact absurd h (by rw [Scan_some_zero]; exact Option.noConfusion)
  | succ n ih =>
    intro s l l2 bs h c hle
    obtain ⟨c1, rfl⟩ : ∃ m, c = m + 1 := ⟨c - 1, by omega⟩
    rw [Scan_succ] at h
    rw [replayNextTokens_succ]
    cases hnx : (step s l).2.2 with
    | none =>
      rw [hnx] at h
      rw [Scan_none] at h
      simp only [Option.map_some', Option.some.injEq, Prod.mk.injEq] at h
      obtain ⟨hl2, hbs⟩ := h
      rw [NextTokens_terminal step start l [] s hnx]
      show some [] = some bs.dropLast.flatten
      rw [← hbs]
      rfl
    | some s2 =>
      rw [hnx] at h
      cases hq : Scan step (some s2) (step s l).1 n with
      | none =>
        rw [hq] at h
        exact absurd h (by simp)
      | some q =>
        obtain ⟨ql, qbs⟩ := q
        rw [hq] at h
        simp only [Option.map_some', Option.some.injEq, Prod.mk.injEq] at h
        obtain ⟨hl2, hbs⟩ := h
        subst hl2
        subst hbs
        rw [NextTokens_step step start l [] s s2 hnx]
        show (replayNextTokens step start c1 ⟨(step s l).1, [], s2, true⟩).map
            (([] ++ (step s l).2.1) ++ ·) = _
        rw [ih s2 (step s l).1 _ qbs hq c1 (by omega)]
        simp only [Option.map_some', List.nil_append]
        have hqne : qbs ≠ [] := Scan_ne_nil step s2 (step s l).1 n _ qbs hq
        cases qbs with
        | nil => exact absurd rfl hqne
        | cons b bt => simp

/-- Witness-free helper: the first pull call resets the pull state, so a
replay started on a fresh (hasNext unset) state equals the replay from
the corresponding primed state. -/
theorem replayNextTokens_fresh {σ : Type}
    (step : σ → L → L × List Token × Option σ) (start : σ) (c : Nat)
    (l : L) (ts : List Token) (s : σ) :
    replayNextTokens step start (c + 1) ⟨l, ts, s, false⟩ =
      replayNextTokens step start (c + 1) ⟨l, [], start, true⟩ := by
  rw [replayNextTokens_succ, replayNextTokens_succ, NextTokens_fresh]

theorem nextTokenLoop_term {σ : Type} (step : σ → L → L × List Token × Option σ)
    (fuel : Nat) (l : L) (acc : List (Option Token)) :
    nextTokenLoop step fuel l acc none = some (l, acc, none) := by
  cases fuel <;> rfl

theorem nextTokenLoop_succ {σ : Type} (step : σ → L → L × List Token × Option σ)
    (fuel : Nat) (l : L) (acc : List (Option Token)) (s : σ) :
    nextTokenLoop step (fuel + 1) l acc (some s) =
      (let r := step s l
       let acc1 := acc ++ r.2.1.map some
       if acc1.length > 0 then some (r.1, acc1, r.2.2)
       else nextTokenLoop step fuel r.1 acc1 r.2.2) := rfl

/-- One loop iteration whose invocation emits nothing continues the
loop. -/
theorem nextTokenLoop_step_empty {σ : Type}
    (step : σ → L → L × List Token × Option σ) (fuel : Nat) (l : L) (s : σ)
    (htoks : (step s l).2.1 = []) :
    nextTokenLoop step (fuel + 1) l [] (some s) =
      nextTokenLoop step fuel (step s l).1 [] (step s l).2.2 := by
  rw [nextTokenLoop_succ]
  simp [htoks]

/-- One loop iteration whose invocation emits tokens exits the loop. -/
theorem nextTokenLoop_step_tokens {σ : Type}
    (step : σ → L → L × List Token × Option σ) (fuel : Nat) (l : L) (s : σ)
    (htoks : (step s l).2.1 ≠ []) :
    nextTokenLoop step (fuel + 1) l [] (some s) =
      some ((step s l).1, (step s l).2.1.map some, (step s l).2.2) := by
  rw [nextTokenLoop_succ]
  simp only [List.nil_append, gt_iff_lt, List.length_pos, ne_eq,
    List.map_eq_nil_iff]
  rw [if_pos htoks]

/-- The inner loop of `NextToken` against the push run: either every
remaining invocation emits nothing and the loop runs to the terminal
signal, or the loop stops at the first invocation that emits, queueing
exactly its batch, with the push run of the rest left over. -/
theorem nextTokenLoop_spec {σ : Type}
    (step : σ → L → L × List Token × Option σ) :
    ∀ (n fuel : Nat) (s : σ) (l l2 : L) (bs : List (List Token)),
      Scan step (some s) l n = some (l2, bs) → n ≤ fuel →
      ((∃ k, bs = List.replicate k [] ∧
          nextTokenLoop step fuel l [] (some s) = some (l2, [], none)) ∨
       (∃ k toks nxt bs2 l1 m, bs = List.replicate k [] ++ toks :: bs2 ∧
          toks ≠ [] ∧
          nextTokenLoop step fuel l [] (some s) = some (l1, toks.map some, nxt) ∧
          Scan step nxt l1 m = some (l2, bs2) ∧ m ≤ n)) := by
  intro n
  induction n with
  | zero =>
    intro fuel s l l2 bs h hle
    exact absurd h (by rw [Scan_some_zero]; exact Option.noConfusion)
  | succ n ih =>
    intro fuel s l l2 bs h hle
    obtain ⟨f1, rfl⟩ : ∃ m, fuel = m + 1 := ⟨fuel - 1, by omega⟩
    rw [Scan_succ] at h
    by_cases htoks : (step s l).2.1 = []
    · rw [nextTokenLoop_step_empty step f1 l s htoks]
      cases hnx : (step s l).2.2 with
      | none =>
        rw [hnx] at h
        rw [Scan_none] at h
        simp only [Option.map_some', Option.some.injEq, Prod.mk.injEq] at h
        obtain ⟨hl2, hbs⟩ := h
        subst hl2
        subst hbs
        left
        refine ⟨1, by rw [htoks]; rfl, ?_⟩
        rw [nextTokenLoop_term]
      | some s2 =>
        rw [hnx] at h
        cases hq : Scan step (some s2) (step s l).1 n with
        | none =>
          rw [hq] at h
          exact absurd h (by simp)
        | some q =>
          obtain ⟨ql, qbs⟩ := q
          rw [hq] at h
          simp only [Option.map_some', Option.some.injEq, Prod.mk.injEq] at h
          obtain ⟨hl2, hbs⟩ := h
          subst hl2
          subst hbs
          rcases ih f1 s2 (step s l).1 _ qbs hq (by omega) with
            ⟨k, hk, hloop⟩ | ⟨k, toks, nxt, bs2, l1, m, hk, htne, hloop, hs2, hm⟩
          · left
            exact ⟨k + 1, by rw [htoks, hk]; rfl, hloop⟩
          · right
            exact ⟨k + 1, toks, nxt, bs2, l1, m, by rw [htoks, hk]; rfl,
              htne, hloop, hs2, by omega⟩
    · rw [nextTokenLoop_step_tokens step f1 l s htoks]
      cases hq : Scan step (step s l).2.2 (step s l).1 n with
      | none =>
        rw [hq] at h
        exact absurd h (by simp)
      | some q =>
        obtain ⟨ql, qbs⟩ := q
        rw [hq] at h
        simp only [Option.map_some', Option.some.injEq, Prod.mk.injEq] at h
        obtain ⟨hl2, hbs⟩ := h
        subst hl2
        subst hbs
        right
        exact ⟨0, (step s l).2.1, (step s l).2.2, qbs, (step s l).1, n,
          rfl, htoks, rfl, hq, by omega⟩

theorem NextToken_queued {σ : Type} (step : σ → L → L × List Token × Option σ)
    (start : σ) (fuel : Nat) (l : L) (t : Option Token)
    (rest : List (Option Token)) (nxt : Option σ) :
    NextToken step start fuel ⟨l, t :: rest, nxt, true⟩ =
      some (⟨l, rest, nxt, true⟩, t) := rfl

theorem NextToken_empty {σ : Type} (step : σ → L → L × List Token × Option σ)
    (start : σ) (fuel : Nat) (l : L) (nxt : Option σ) :
    NextToken step start fuel ⟨l, [], nxt, true⟩ =
      (match nextTokenLoop step fuel l [] nxt with
       | none => none
       | some (l1, acc, nxt2) =>
         (match (if nxt2.isNone then acc ++ [none] else acc) with
          | t :: rest => some (⟨l1, rest, nxt2, true⟩, t)
          | [] => some (⟨l1, [], nxt2, true⟩, none))) := rfl

theorem NextToken_fresh {σ : Type} (step : σ → L → L × List Token × Option σ)
    (start : σ) (fuel : Nat) (l : L) (ts : List (Option Token))
    (nxt : Option σ) :
    NextToken step start fuel ⟨l, ts, nxt, false⟩ =
      NextToken step start fuel ⟨l, [], some start, true⟩ := rfl

theorem replayNextToken_succ {σ : Type}
    (step : σ → L → L × List Token × Option σ) (start : σ) (fuel c : Nat)
    (p : PTState σ) :
    replayNextToken step start fuel (c + 1) p =
      (match NextToken step start fuel p with
       | none => none
       | some (_, none) => some []
       | some (p1, some t) =>
         (replayNextToken step start fuel c p1).map (t :: ·)) := rfl

/-- The `NextToken` replay invariant: from any protocol state whose
queue holds the tokens `qr` (followed by the queued sentinel exactly
when the cached next state is terminal), the replay returns `qr`
followed by every token of the remaining push run — `NextToken` loses
nothing, including tokens emitted during the terminal invocation. -/
theorem replayNextToken_spec {σ : Type}
    (step : σ → L → L × List Token × Option σ) (start : σ) (F : Nat) :
    ∀ (c : Nat) (qr : List Token) (nxt : Option σ) (l l2 : L)
      (bs : List (List Token)) (q : List (Option Token)),
      Scan step nxt l F = some (l2, bs) →
      qr.length + bs.flatten.length + 1 ≤ c →
      q = qr.map some ++ queueTail nxt →
      replayNextToken step start F c ⟨l, q, nxt, true⟩ =
        some (qr ++ bs.flatten) := by
  intro c
  induction c with
  | zero =>
    intro qr nxt l l2 bs q h hle hq
    exact absurd hle (by omega)
  | succ c ih =>
    intro qr nxt l l2 bs q h hle hq
    cases qr with
    | cons t qt =>
      simp only [List.map_cons, List.cons_append] at hq
      subst hq
      rw [replayNextToken_succ, NextToken_queued]
      show (replayNextToken step start F c
          ⟨l, List.map some qt ++ queueTail nxt, nxt, true⟩).map
          (fun x => t :: x) = some ((t :: qt) ++ bs.flatten)
      rw [ih qt nxt l l2 bs _ h
          (by simp only [List.length_cons] at hle; omega) rfl]
      simp
    | nil =>
      simp only [List.map_nil, List.nil_append] at hq
      cases nxt with
      | none =>
        simp only [queueTail] at hq
        subst hq
        rw [Scan_none] at h
        simp only [Option.some.injEq, Prod.mk.injEq] at h
        obtain ⟨hl2, hbs⟩ := h
        subst hbs
        rw [replayNextToken_succ, NextToken_queued]
        rfl
      | some s =>
        simp only [queueTail] at hq
        subst hq
        rw [replayNextToken_succ, NextToken_empty]
        rcases nextTokenLoop_spec step F F s l l2 bs h (le_refl F) with
          ⟨k, hk, hloop⟩ |
          ⟨k, toks, nxt2, bs2, l1, m, hk, htne, hloop, hs2, hm⟩
        · rw [hloop]
          show some [] = some ([] ++ bs.flatten)
          rw [hk, flatten_replicate_nil]
          rfl
        · rw [hloop]
          cases toks with
          | nil => exact absurd rfl htne
          | cons t0 tt =>
            cases nxt2 with
            | none =>
              rw [Scan_none] at hs2
              simp only [Option.some.injEq, Prod.mk.injEq] at hs2
              obtain ⟨hl1, hbs2⟩ := hs2
              subst hbs2
              have hflat : bs.flatten = t0 :: tt := by
                rw [hk]
                simp [List.flatten_append, flatten_replicate_nil]
              show (replayNextToken step start F c
                  ⟨l1, List.map some tt ++ queueTail (none : Option σ), none,
                    true⟩).map
                  (fun x => t0 :: x) = some ([] ++ bs.flatten)
              rw [ih tt none l1 l1 [] _ (Scan_none step l1 F)
                  (by rw [hflat] at hle
                      simp only [List.length_cons] at hle
                      simp
                      omega) rfl]
              rw [hflat]
              simp
            | some s2 =>
              have hscan : Scan step (some s2) l1 F = some (l2, bs2) :=
                Scan_mono step m F _ _ _ hs2 (by omega)
              have hflat : bs.flatten = (t0 :: tt) ++ bs2.flatten := by
                rw [hk]
                simp [List.flatten_append, flatten_replicate_nil]
              show (replayNextToken step start F c
                  ⟨l1, List.map some tt, some s2, true⟩).map
                  (fun x => t0 :: x) = some ([] ++ bs.flatten)
              rw [ih tt (some s2) l1 l2 bs2 (List.map some tt) hscan
                  (by rw [hflat] at hle
                      simp only [List.length_cons, List.length_append] at hle
                      omega) (by simp [queueTail])]
              rw [hflat]
              simp

/-- Claim C1, counterexample to the original claim: scanning `"123"`
from `NumberState` in push mode emits one token (during the state
invocation that returns the terminal signal); replaying the same input
and start state through `NextTokens` discards it and yields the empty
sequence. -/
theorem C1_counterexample :
    (Scan repoStep (some RepoState.number) (New [49, 50, 51] true) 1).map
        (fun q => q.2.flatten) =
      some [{ type := NumberToken, value := [49, 50, 51] }] ∧
    replayNextTokens repoStep RepoState.number 2
        ⟨New [49, 50, 51] true, [], RepoState.number, false⟩ =
      some [] := by
  decide

/-- Claim C1, amended: replaying a pull-mode scan start-to-end via
repeated `NextToken` calls yields exactly the ordered token sequence of
a push-mode `Scan` of the same input and start state, including tokens
emitted during the state invocation that returns the terminal signal;
replaying via repeated `NextTokens` calls yields that sequence with the
terminal invocation's tokens discarded — hence exactly the push
sequence whenever the terminal invocation emits no tokens. -/
theorem C1_pull_replay {σ : Type} (step : σ → L → L × List Token × Option σ)
    (start : σ) (l : L) (n : Nat) (l2 : L) (bs : List (List Token))
    (h : Scan step (some start) l n = some (l2, bs)) :
    replayNextToken step start n (bs.flatten.length + 1)
        ⟨l, [], none, false⟩ = some bs.flatten ∧
    replayNextTokens step start (n + 1) ⟨l, [], start, false⟩ =
      some bs.dropLast.flatten ∧
    (bs.getLast? = some [] →
      replayNextTokens step start (n + 1) ⟨l, [], start, false⟩ =
        some bs.flatten) := by
  have hB : replayNextTokens step start (n + 1) ⟨l, [], start, false⟩ =
      some bs.dropLast.flatten := by
    rw [replayNextTokens_fresh]
    exact replayNextTokens_spec step start n start l l2 bs h (n + 1) (by omega)
  refine ⟨?_, hB, ?_⟩
  · have hfr : replayNextToken step start n (bs.flatten.length + 1)
        ⟨l, [], none, false⟩ =
        replayNextToken step start n (bs.flatten.length + 1)
          ⟨l, [], some start, true⟩ := by
      rw [replayNextToken_succ, replayNextToken_succ, NextToken_fresh]
    rw [hfr]
    have := replayNextToken_spec step start n (bs.flatten.length + 1) []
        (some start) l l2 bs ([] : List (Option Token)) h (by simp)
        (by simp [queueTail])
    simpa using this
  · intro hlast
    rw [hB]
    have hsplit : bs.dropLast ++ [[]] = bs :=
      List.dropLast_append_getLast? [] hlast
    have hfl : bs.dropLast.flatten = bs.flatten := by
      conv_rhs => rw [← hsplit]
      simp
    rw [hfl]

/-- Witness for `C1_pull_replay`: the whitespace grammar on `"1"` — one
invocation, emitting no tokens, then terminal — where both replays
yield the (empty) push sequence. -/
theorem C1_pull_replay_witness :
    replayNextToken repoStep RepoState.whitespace 2 1
        ⟨New [49] true, [], none, false⟩ = some [] ∧
    replayNextTokens repoStep RepoState.whitespace 3
        ⟨New [49] true, [], RepoState.whitespace, false⟩ = some [] := by
  have h := C1_pull_replay repoStep RepoState.whitespace (New [49] true) 2
      { source := [], start := 0, position := 1, readbytes := 1, buf := [49]
        Err := some "unexpected token '1'", hasErrorHandler := true
        errorCalls := 1, rewind := [49] }
      [[]] (by decide)
  exact ⟨h.1, h.2.2 rfl⟩

/-- Witness for `C10_error_frame`. -/
theorem C10_error_frame_witness :
    ∃ l1, Error "oops" (New [49] true) = some l1 ∧
      l1.buf = (New [49] true).buf ∧ l1.start = (New [49] true).start ∧
      l1.position = (New [49] true).position ∧
      l1.rewind = (New [49] true).rewind ∧
      l1.readbytes = (New [49] true).readbytes ∧
      l1.source = (New [49] true).source ∧ l1.Err = some "oops" :=
  C10_error_frame (New [49] true) "oops" rfl

end StateLexer
